import Mathlib

/-!
Shallow embedding of the refcount-interner crate (src/rc_interner.rs,
src/arc_interner.rs). The two interners differ only in whether the
reference count is atomic; their table logic is identical, so one model
covers both. Reference-counted pointers are modelled by allocation
identifiers into an explicit heap: each allocation records its id, its
immutable value and its current strong count. The interner's HashSet of
pointers is modelled as a list of allocation ids keyed by the pointed-to
value; allocation ids are never reused.
-/

set_option linter.unusedSectionVars false

namespace RefcountInterner

/-- One reference-counted allocation: its identifier, the immutable value
behind the pointer, and the current strong reference count. -/
structure Alloc (α : Type) where
  id : Nat
  val : α
  strong : Nat
deriving DecidableEq

/-- Model of RcInterner / ArcInterner together with the heap of allocations
it interacts with: `allocs` is the heap (ids never reused, entries never
deleted, a deallocated entry just has strong count 0), `nextId` the next
fresh allocation id, and `table` the interner's HashSet of pointers,
represented by their allocation ids. -/
structure Interner (α : Type) where
  allocs : List (Alloc α)
  nextId : Nat
  table : List Nat
deriving DecidableEq

namespace Interner

variable {α : Type} [DecidableEq α]

/-- RcInterner::new / ArcInterner::new: empty table, empty heap. -/
def new : Interner α := ⟨[], 0, []⟩

/-- Look up an allocation by id in the heap. -/
def findAlloc (s : Interner α) (i : Nat) : Option (Alloc α) :=
  s.allocs.find? (fun a => a.id == i)

/-- The value behind pointer `i`, if allocated. -/
def valOf (s : Interner α) (i : Nat) : Option α :=
  (s.findAlloc i).map Alloc.val

/-- Rc::strong_count / Arc::strong_count of pointer `i` (0 if unallocated). -/
def strongCount (s : Interner α) (i : Nat) : Nat :=
  ((s.findAlloc i).map Alloc.strong).getD 0

/-- Rc::clone: increment the strong count of allocation `i`. -/
def incr (s : Interner α) (i : Nat) : Interner α :=
  { s with allocs := s.allocs.map (fun a =>
      if a.id == i then { a with strong := a.strong + 1 } else a) }

/-- Dropping one handle to allocation `i`: decrement its strong count. -/
def decr (s : Interner α) (i : Nat) : Interner α :=
  { s with allocs := s.allocs.map (fun a =>
      if a.id == i then { a with strong := a.strong - 1 } else a) }

/-- HashSet::get keyed by value: the first table pointer whose referenced
value equals `t`. -/
def tableGet (s : Interner α) (t : α) : Option Nat :=
  s.table.find? (fun i => s.valOf i == some t)

/-- RcInterner::try_intern: `self.0.get(t).cloned()` — pure lookup, cloning
(incrementing) the found handle; the table itself is untouched. -/
def try_intern (s : Interner α) (t : α) : Option Nat × Interner α :=
  match s.tableGet t with
  | some i => (some i, s.incr i)
  | none => (none, s)

/-- RcInterner::intern: on a hit return a clone of the existing handle; on a
miss allocate `Rc::new(t)` (count 1), insert a clone into the table
(count 2) and return the handle. -/
def intern (s : Interner α) (t : α) : Nat × Interner α :=
  match s.tableGet t with
  | some i => (i, s.incr i)
  | none =>
    let i := s.nextId
    (i, { allocs := s.allocs ++ [⟨i, t, 2⟩], nextId := i + 1,
          table := s.table ++ [i] })

/-- RcInterner::intern_cloned: same hit path; on a miss the borrowed value
is cloned into a fresh allocation (clone of a pure value is the value). -/
def intern_cloned (s : Interner α) (t : α) : Nat × Interner α :=
  match s.tableGet t with
  | some i => (i, s.incr i)
  | none =>
    let i := s.nextId
    (i, { allocs := s.allocs ++ [⟨i, t, 2⟩], nextId := i + 1,
          table := s.table ++ [i] })

/-- RcInterner::intern_boxed: same hit path; on a miss the boxed value is
moved into a fresh allocation via `Rc::from(t)`. A Box is modelled by the
value it owns. -/
def intern_boxed (s : Interner α) (t : α) : Nat × Interner α :=
  match s.tableGet t with
  | some i => (i, s.incr i)
  | none =>
    let i := s.nextId
    (i, { allocs := s.allocs ++ [⟨i, t, 2⟩], nextId := i + 1,
          table := s.table ++ [i] })

/-- RcInterner::shrink_to_fit: retain exactly the entries whose strong count
exceeds 1; a removed entry loses the table's reference (count decremented).
The capacity shrink has no observable effect in the model. -/
def shrink_to_fit (s : Interner α) : Interner α :=
  { s with
    table := s.table.filter (fun i => decide (1 < s.strongCount i)),
    allocs := s.allocs.map (fun a =>
      if a.id ∈ s.table.filter (fun i => decide (¬ 1 < s.strongCount i))
      then { a with strong := a.strong - 1 } else a) }

end Interner

section SliceStr

variable {β : Type} [DecidableEq β]

/-- RcInterner::intern_slice on Interner of sequences: same hit path; on a
miss the borrowed slice is copied into a fresh allocation via
`Rc::from(t)`. -/
def Interner.intern_slice (s : Interner (List β)) (t : List β) :
    Nat × Interner (List β) :=
  match s.tableGet t with
  | some i => (i, s.incr i)
  | none =>
    let i := s.nextId
    (i, { allocs := s.allocs ++ [⟨i, t, 2⟩], nextId := i + 1,
          table := s.table ++ [i] })

/-- RcInterner::intern_vec: `self.intern_boxed(t.into_boxed_slice())`; the
boxed slice carries the same sequence of elements. -/
def Interner.intern_vec (s : Interner (List β)) (t : List β) :
    Nat × Interner (List β) :=
  s.intern_boxed t

/-- RcInterner::intern_str: same hit path; on a miss the borrowed string
slice is copied into a fresh allocation via `Rc::from(t)`. -/
def Interner.intern_str (s : Interner String) (t : String) :
    Nat × Interner String :=
  match s.tableGet t with
  | some i => (i, s.incr i)
  | none =>
    let i := s.nextId
    (i, { allocs := s.allocs ++ [⟨i, t, 2⟩], nextId := i + 1,
          table := s.table ++ [i] })

/-- RcInterner::intern_string: `self.intern_boxed(t.into_boxed_str())`; the
boxed str carries the same text. -/
def Interner.intern_string (s : Interner String) (t : String) :
    Nat × Interner String :=
  s.intern_boxed t

end SliceStr

/-- The caller-visible operations on an interner together with the handle
operations a caller may perform (cloning and dropping handles it holds). -/
inductive Op (α : Type) where
  | tryIntern (t : α)
  | internOp (t : α)
  | internClonedOp (t : α)
  | internBoxedOp (t : α)
  | cloneHandle (i : Nat)
  | dropHandle (i : Nat)
  | shrinkToFit
deriving DecidableEq

namespace Interner

variable {α : Type} [DecidableEq α]

/-- State transition of one operation (return values discarded). -/
def step (s : Interner α) : Op α → Interner α
  | .tryIntern t => (s.try_intern t).2
  | .internOp t => (s.intern t).2
  | .internClonedOp t => (s.intern_cloned t).2
  | .internBoxedOp t => (s.intern_boxed t).2
  | .cloneHandle i => s.incr i
  | .dropHandle i => s.decr i
  | .shrinkToFit => s.shrink_to_fit

/-- Run a sequence of operations from a state. -/
def run (s : Interner α) (ops : List (Op α)) : Interner α :=
  ops.foldl step s

/-- The table holds at most one live entry per distinct value: two table
pointers with equal referenced values are the same pointer. -/
def AtMostOnePerValue (s : Interner α) : Prop :=
  ∀ i ∈ s.table, ∀ j ∈ s.table, s.valOf i = s.valOf j → i = j

/-- Well-formedness of an interner state: heap ids are unique and below
`nextId`, the table has no duplicate pointers, every table pointer is
allocated, and values are deduplicated. -/
def Inv (s : Interner α) : Prop :=
  (s.allocs.map Alloc.id).Nodup ∧
  (∀ a ∈ s.allocs, a.id < s.nextId) ∧
  s.table.Nodup ∧
  (∀ i ∈ s.table, (s.findAlloc i).isSome) ∧
  AtMostOnePerValue s

instance instDecidableAtMostOne (s : Interner α) :
    Decidable (AtMostOnePerValue s) := by
  unfold AtMostOnePerValue
  infer_instance

instance instDecidableInv (s : Interner α) : Decidable (Inv s) := by
  unfold Inv
  infer_instance

end Interner

/-- Whether an operation is an intern-family call whose argument equals the
given value. -/
def Op.internsValue {α : Type} [DecidableEq α] (v : α) : Op α → Bool
  | .internOp t => t == v
  | .internClonedOp t => t == v
  | .internBoxedOp t => t == v
  | _ => false

/-- Selector for the three intern-family entry points on sized values. -/
inductive EPoint where
  | useIntern
  | useCloned
  | useBoxed
deriving DecidableEq

namespace Interner

variable {α : Type} [DecidableEq α]

/-- Apply the selected intern-family entry point. -/
def applyEP : EPoint → Interner α → α → Nat × Interner α
  | .useIntern, s, t => s.intern t
  | .useCloned, s, t => s.intern_cloned t
  | .useBoxed, s, t => s.intern_boxed t

/-- Run a chain of intern-family calls with the same value, collecting the
returned handles. -/
def runEP (s : Interner α) (v : α) : List EPoint → List Nat × Interner α
  | [] => ([], s)
  | e :: es =>
    let r := applyEP e s v
    let rest := runEP r.2 v es
    (r.1 :: rest.1, rest.2)

end Interner

/-! Basic lemmas about the heap operations. -/

namespace Interner

variable {α : Type} [DecidableEq α]

/-- find? commutes with mapping a function that does not change the
predicate's verdict. -/
theorem find?_map_idpred {γ : Type} (p : γ → Bool) (f : γ → γ)
    (hp : ∀ a, p (f a) = p a) (l : List γ) :
    (l.map f).find? p = (l.find? p).map f := by
  induction l with
  | nil => rfl
  | cons a l ih =>
    by_cases h : p a = true
    · rw [List.map_cons, List.find?_cons_of_pos _ (by rw [hp]; exact h),
        List.find?_cons_of_pos _ h]
      rfl
    · rw [List.map_cons, List.find?_cons_of_neg _ (by rw [hp]; exact h),
        List.find?_cons_of_neg _ h, ih]

theorem findAlloc_mapAllocs (s : Interner α) (f : Alloc α → Alloc α)
    (hid : ∀ a, (f a).id = a.id) (i : Nat) :
    Interner.findAlloc { s with allocs := s.allocs.map f } i
      = (s.findAlloc i).map f := by
  unfold findAlloc
  exact find?_map_idpred _ f (fun a => by rw [hid]) s.allocs

theorem valOf_mapAllocs (s : Interner α) (f : Alloc α → Alloc α)
    (hid : ∀ a, (f a).id = a.id) (hval : ∀ a, (f a).val = a.val) (i : Nat) :
    Interner.valOf { s with allocs := s.allocs.map f } i = s.valOf i := by
  unfold valOf
  rw [findAlloc_mapAllocs s f hid]
  cases s.findAlloc i with
  | none => rfl
  | some a => simp [hval]

theorem valOf_incr (s : Interner α) (j i : Nat) :
    (s.incr j).valOf i = s.valOf i := by
  unfold incr
  exact valOf_mapAllocs s _ (fun a => by split <;> rfl)
    (fun a => by split <;> rfl) i

theorem valOf_decr (s : Interner α) (j i : Nat) :
    (s.decr j).valOf i = s.valOf i := by
  unfold decr
  exact valOf_mapAllocs s _ (fun a => by split <;> rfl)
    (fun a => by split <;> rfl) i

theorem findAlloc_isSome_incr (s : Interner α) (j i : Nat) :
    ((s.incr j).findAlloc i).isSome = (s.findAlloc i).isSome := by
  unfold incr
  rw [findAlloc_mapAllocs s _ (fun a => by split <;> rfl)]
  cases s.findAlloc i <;> rfl

theorem valOf_shrink (s : Interner α) (i : Nat) :
    (s.shrink_to_fit).valOf i = s.valOf i := by
  show ((s.allocs.map (fun a =>
      if a.id ∈ s.table.filter (fun j => decide (¬ 1 < s.strongCount j))
      then { a with strong := a.strong - 1 } else a)).find?
        (fun a => a.id == i)).map Alloc.val
    = (s.allocs.find? (fun a => a.id == i)).map Alloc.val
  rw [find?_map_idpred (fun a => a.id == i) _ (fun a => by split <;> rfl)
    s.allocs]
  cases hf : s.allocs.find? (fun a => a.id == i) with
  | none => rfl
  | some a =>
    have hval : (if a.id ∈ s.table.filter (fun j => decide (¬ 1 < s.strongCount j))
        then { a with strong := a.strong - 1 } else a).val = a.val := by
      split <;> rfl
    exact congrArg some hval

theorem findAlloc_id (s : Interner α) (i : Nat) (a : Alloc α)
    (h : s.findAlloc i = some a) : a.id = i := by
  have := List.find?_some h
  simpa using this

theorem findAlloc_mem (s : Interner α) (i : Nat) (a : Alloc α)
    (h : s.findAlloc i = some a) : a ∈ s.allocs :=
  List.mem_of_find?_eq_some h

theorem valOf_isSome (s : Interner α) (i : Nat) (v : α)
    (h : s.valOf i = some v) : (s.findAlloc i).isSome = true := by
  unfold valOf at h
  cases hf : s.findAlloc i with
  | none => rw [hf] at h; exact absurd h (by simp)
  | some a => rfl

theorem strongCount_incr_ne (s : Interner α) (j i : Nat) (h : i ≠ j) :
    (s.incr j).strongCount i = s.strongCount i := by
  unfold strongCount incr
  rw [findAlloc_mapAllocs s _ (fun a => by split <;> rfl)]
  cases hf : s.findAlloc i with
  | none => rfl
  | some a =>
    have hid : a.id = i := findAlloc_id s i a hf
    have : (a.id == j) = false := by
      rw [hid]; exact beq_false_of_ne h
    show (((if a.id == j then { a with strong := a.strong + 1 } else a :
      Alloc α)).strong) = a.strong
    rw [this]
    simp

/-- The first table entry whose value equals `t`: membership part. -/
theorem tableGet_mem (s : Interner α) (t : α) (i : Nat)
    (h : s.tableGet t = some i) : i ∈ s.table :=
  List.mem_of_find?_eq_some h

/-- The first table entry whose value equals `t`: its value is `t`. -/
theorem tableGet_val (s : Interner α) (t : α) (i : Nat)
    (h : s.tableGet t = some i) : s.valOf i = some t := by
  have := List.find?_some h
  simpa using this

/-- On a miss, no table entry refers to an equal value. -/
theorem tableGet_none (s : Interner α) (t : α)
    (h : s.tableGet t = none) : ∀ i ∈ s.table, s.valOf i ≠ some t := by
  intro i hi
  have := List.find?_eq_none.1 h i hi
  simpa using this

/-- Conversely: if no table entry refers to an equal value, lookup misses. -/
theorem tableGet_eq_none (s : Interner α) (t : α)
    (h : ∀ i ∈ s.table, s.valOf i ≠ some t) : s.tableGet t = none := by
  apply List.find?_eq_none.2
  intro i hi
  simpa using h i hi

/-- Under the invariant, the lookup of a value held by table entry `i`
returns exactly `i`. -/
theorem tableGet_eq_some_of_inv (s : Interner α) (t : α) (i : Nat)
    (hInv : Inv s) (hi : i ∈ s.table) (hv : s.valOf i = some t) :
    s.tableGet t = some i := by
  cases hfind : s.tableGet t with
  | none => exact absurd hv (tableGet_none s t hfind i hi)
  | some j =>
    obtain hj := tableGet_mem s t j hfind
    obtain hvj := tableGet_val s t j hfind
    have hij : j = i := hInv.2.2.2.2 j hj i hi (by rw [hv, hvj])
    rw [hij]

/-- Lookup is insensitive to reference count changes. -/
theorem tableGet_incr (s : Interner α) (j : Nat) (t : α) :
    (s.incr j).tableGet t = s.tableGet t := by
  unfold tableGet
  have htab : (s.incr j).table = s.table := rfl
  have hp : (fun i => (s.incr j).valOf i == some t)
      = (fun i => s.valOf i == some t) := by
    funext i
    rw [valOf_incr]
  rw [htab, hp]

/-- Under the invariant, `nextId` is unallocated. -/
theorem findAlloc_nextId (s : Interner α) (hInv : Inv s) :
    s.findAlloc s.nextId = none := by
  cases h : s.findAlloc s.nextId with
  | none => rfl
  | some a =>
    have hmem := findAlloc_mem s s.nextId a h
    have hlt := hInv.2.1 a hmem
    have hid := findAlloc_id s s.nextId a h
    omega

/-- Abbreviation for the state produced by the miss branch of the
intern-family operations. -/
def missState (s : Interner α) (t : α) : Interner α :=
  ⟨s.allocs ++ [⟨s.nextId, t, 2⟩], s.nextId + 1, s.table ++ [s.nextId]⟩

theorem intern_hit (s : Interner α) (t : α) (i : Nat)
    (h : s.tableGet t = some i) : s.intern t = (i, s.incr i) := by
  unfold intern
  rw [h]

theorem intern_miss (s : Interner α) (t : α)
    (h : s.tableGet t = none) : s.intern t = (s.nextId, missState s t) := by
  unfold intern
  rw [h]
  rfl

theorem intern_cloned_eq (s : Interner α) (t : α) :
    s.intern_cloned t = s.intern t := rfl

theorem intern_boxed_eq (s : Interner α) (t : α) :
    s.intern_boxed t = s.intern t := rfl

theorem intern_slice_eq {β : Type} [DecidableEq β] (s : Interner (List β))
    (t : List β) : s.intern_slice t = s.intern t := rfl

theorem intern_vec_eq {β : Type} [DecidableEq β] (s : Interner (List β))
    (t : List β) : s.intern_vec t = s.intern t := rfl

theorem intern_str_eq (s : Interner String) (t : String) :
    s.intern_str t = s.intern t := rfl

theorem intern_string_eq (s : Interner String) (t : String) :
    s.intern_string t = s.intern t := rfl

theorem findAlloc_missState_of_isSome (s : Interner α) (t : α) (i : Nat)
    (h : (s.findAlloc i).isSome) :
    (missState s t).findAlloc i = s.findAlloc i := by
  show (s.allocs ++ [Alloc.mk s.nextId t 2]).find? (fun a => a.id == i)
    = s.findAlloc i
  rw [List.find?_append]
  cases hf : s.findAlloc i with
  | none => rw [hf] at h; exact absurd h (by simp)
  | some a =>
    unfold findAlloc at hf
    rw [hf]
    rfl

theorem valOf_missState_of_isSome (s : Interner α) (t : α) (i : Nat)
    (h : (s.findAlloc i).isSome) :
    (missState s t).valOf i = s.valOf i := by
  unfold valOf
  rw [findAlloc_missState_of_isSome s t i h]

theorem valOf_missState_new (s : Interner α) (t : α) (hInv : Inv s) :
    (missState s t).valOf s.nextId = some t := by
  unfold valOf
  show ((s.allocs ++ [Alloc.mk s.nextId t 2]).find?
    (fun a => a.id == s.nextId)).map Alloc.val = some t
  rw [List.find?_append]
  have h0 : s.allocs.find? (fun a => a.id == s.nextId) = none :=
    findAlloc_nextId s hInv
  rw [h0]
  rw [List.find?_cons_of_pos _ (by simp)]
  rfl

theorem strongCount_missState_ne (s : Interner α) (t : α) (i : Nat)
    (h : i ≠ s.nextId) :
    (missState s t).strongCount i = s.strongCount i := by
  unfold strongCount
  show (((s.allocs ++ [Alloc.mk s.nextId t 2]).find?
    (fun a => a.id == i)).map Alloc.strong).getD 0 = _
  rw [List.find?_append]
  have hnew : List.find? (fun a => a.id == i)
      [Alloc.mk s.nextId t 2] = none := by
    rw [List.find?_cons_of_neg _ (by simpa using fun hc => h hc.symm)]
    rfl
  rw [hnew]
  cases hf : s.findAlloc i with
  | none =>
    unfold findAlloc at hf
    rw [hf]
    rfl
  | some a =>
    unfold findAlloc at hf
    rw [hf]
    rfl

theorem tableGet_missState (s : Interner α) (t : α) (hInv : Inv s)
    (hg : s.tableGet t = none) :
    (missState s t).tableGet t = some s.nextId := by
  show (s.table ++ [s.nextId]).find?
    (fun i => (missState s t).valOf i == some t) = some s.nextId
  rw [List.find?_append]
  have h1 : s.table.find? (fun i => (missState s t).valOf i == some t)
      = none := by
    apply List.find?_eq_none.2
    intro i hi
    have hs : (s.findAlloc i).isSome := hInv.2.2.2.1 i hi
    rw [valOf_missState_of_isSome s t i hs]
    simpa using tableGet_none s t hg i hi
  rw [h1]
  rw [List.find?_cons_of_pos _ (by rw [valOf_missState_new s t hInv]; simp)]
  rfl

/-- After any intern call, looking the value up again finds exactly the
returned handle. -/
theorem tableGet_intern_self (s : Interner α) (t : α) (hInv : Inv s) :
    (s.intern t).2.tableGet t = some (s.intern t).1 := by
  cases hg : s.tableGet t with
  | some j =>
    rw [intern_hit s t j hg]
    show (s.incr j).tableGet t = some j
    rw [tableGet_incr]
    exact hg
  | none =>
    rw [intern_miss s t hg]
    exact tableGet_missState s t hInv hg

/-- The handle returned by intern refers to the interned value. -/
theorem valOf_intern_self (s : Interner α) (t : α) (hInv : Inv s) :
    (s.intern t).2.valOf (s.intern t).1 = some t := by
  cases hg : s.tableGet t with
  | some j =>
    rw [intern_hit s t j hg]
    show (s.incr j).valOf j = some t
    rw [valOf_incr]
    exact tableGet_val s t j hg
  | none =>
    rw [intern_miss s t hg]
    exact valOf_missState_new s t hInv

@[simp] theorem mk_allocs (l : List (Alloc α)) (n : Nat) (tb : List Nat) :
    (Interner.mk l n tb).allocs = l := rfl

@[simp] theorem mk_nextId (l : List (Alloc α)) (n : Nat) (tb : List Nat) :
    (Interner.mk l n tb).nextId = n := rfl

@[simp] theorem mk_table (l : List (Alloc α)) (n : Nat) (tb : List Nat) :
    (Interner.mk l n tb).table = tb := rfl

@[simp] theorem shrink_table (s : Interner α) :
    (s.shrink_to_fit).table
      = s.table.filter (fun i => decide (1 < s.strongCount i)) := rfl

theorem findAlloc_isSome_shrink (s : Interner α) (i : Nat) :
    ((s.shrink_to_fit).findAlloc i).isSome = (s.findAlloc i).isSome := by
  show ((s.allocs.map (fun a =>
      if a.id ∈ s.table.filter (fun j => decide (¬ 1 < s.strongCount j))
      then { a with strong := a.strong - 1 } else a)).find?
        (fun a => a.id == i)).isSome = _
  rw [find?_map_idpred (fun a => a.id == i) _ (fun a => by split <;> rfl)
    s.allocs]
  cases hf : s.allocs.find? (fun a => a.id == i) with
  | none =>
    unfold findAlloc
    rw [hf]
    rfl
  | some a =>
    unfold findAlloc
    rw [hf]
    rfl

/-- Retained after compaction iff present before with strong count above 1. -/
theorem mem_table_shrink (s : Interner α) (i : Nat) :
    i ∈ (s.shrink_to_fit).table ↔ i ∈ s.table ∧ 1 < s.strongCount i := by
  rw [shrink_table]
  simp [List.mem_filter]

theorem inv_mapAllocs (s : Interner α) (f : Alloc α → Alloc α)
    (hid : ∀ a, (f a).id = a.id) (hval : ∀ a, (f a).val = a.val)
    (hInv : Inv s) : Inv { s with allocs := s.allocs.map f } := by
  obtain ⟨h1, h2, h3, h4, h5⟩ := hInv
  refine ⟨?_, ?_, h3, ?_, ?_⟩
  · show ((s.allocs.map f).map Alloc.id).Nodup
    rw [List.map_map]
    have hcomp : (Alloc.id ∘ f) = Alloc.id := funext hid
    rw [hcomp]
    exact h1
  · intro a ha
    simp only [mk_allocs] at ha
    rw [List.mem_map] at ha
    obtain ⟨b, hb, rfl⟩ := ha
    simp only [mk_nextId]
    rw [hid]
    exact h2 b hb
  · intro i hi
    simp only [mk_table] at hi
    have hs := h4 i hi
    have heq := findAlloc_mapAllocs s f hid i
    rw [heq]
    cases hf : s.findAlloc i with
    | none =>
      rw [hf] at hs
      exact absurd hs (by simp)
    | some a => rfl
  · intro i hi j hj hv
    simp only [mk_table] at hi hj
    rw [valOf_mapAllocs s f hid hval i, valOf_mapAllocs s f hid hval j] at hv
    exact h5 i hi j hj hv

theorem inv_incr (s : Interner α) (j : Nat) (hInv : Inv s) :
    Inv (s.incr j) := by
  unfold incr
  exact inv_mapAllocs s _ (fun a => by split <;> rfl)
    (fun a => by split <;> rfl) hInv

theorem inv_decr (s : Interner α) (j : Nat) (hInv : Inv s) :
    Inv (s.decr j) := by
  unfold decr
  exact inv_mapAllocs s _ (fun a => by split <;> rfl)
    (fun a => by split <;> rfl) hInv

theorem inv_shrink (s : Interner α) (hInv : Inv s) :
    Inv (s.shrink_to_fit) := by
  obtain ⟨h1, h2, h3, h4, h5⟩ :=
    inv_mapAllocs s (fun a =>
        if a.id ∈ s.table.filter (fun i => decide (¬ 1 < s.strongCount i))
        then { a with strong := a.strong - 1 } else a)
      (fun a => by dsimp only; split <;> rfl)
      (fun a => by dsimp only; split <;> rfl) hInv
  refine ⟨h1, h2, ?_, ?_, ?_⟩
  · exact hInv.2.2.1.filter _
  · intro i hi
    rw [mem_table_shrink] at hi
    rw [findAlloc_isSome_shrink]
    exact hInv.2.2.2.1 i hi.1
  · intro i hi j hj hv
    rw [mem_table_shrink] at hi hj
    rw [valOf_shrink, valOf_shrink] at hv
    exact hInv.2.2.2.2 i hi.1 j hj.1 hv

@[simp] theorem missState_allocs (s : Interner α) (t : α) :
    (missState s t).allocs = s.allocs ++ [Alloc.mk s.nextId t 2] := rfl

@[simp] theorem missState_nextId (s : Interner α) (t : α) :
    (missState s t).nextId = s.nextId + 1 := rfl

@[simp] theorem missState_table (s : Interner α) (t : α) :
    (missState s t).table = s.table ++ [s.nextId] := rfl

theorem inv_missState (s : Interner α) (t : α) (hInv : Inv s)
    (hg : s.tableGet t = none) : Inv (missState s t) := by
  obtain ⟨h1, h2, h3, h4, h5⟩ := hInv
  have hfresh : s.findAlloc s.nextId = none :=
    findAlloc_nextId s ⟨h1, h2, h3, h4, h5⟩
  have hnotin : s.nextId ∉ s.table := by
    intro hmem
    have := h4 s.nextId hmem
    rw [hfresh] at this
    exact absurd this (by simp)
  refine ⟨?_, ?_, ?_, ?_, ?_⟩
  · show ((s.allocs ++ [Alloc.mk s.nextId t 2]).map Alloc.id).Nodup
    rw [List.map_append]
    rw [List.nodup_append]
    refine ⟨h1, by simp, ?_⟩
    intro x hx hx'
    simp only [List.map_cons, List.map_nil, List.mem_singleton] at hx'
    subst hx'
    rw [List.mem_map] at hx
    obtain ⟨a, ha, hax⟩ := hx
    have := h2 a ha
    omega
  · intro a ha
    simp only [missState_allocs] at ha
    rw [List.mem_append] at ha
    simp only [missState_nextId]
    cases ha with
    | inl h => have := h2 a h; omega
    | inr h =>
      simp only [List.mem_singleton] at h
      subst h
      show s.nextId < s.nextId + 1
      omega
  · show (s.table ++ [s.nextId]).Nodup
    rw [List.nodup_append]
    refine ⟨h3, by simp, ?_⟩
    intro x hx hx'
    simp only [List.mem_singleton] at hx'
    subst hx'
    exact hnotin hx
  · intro i hi
    simp only [missState_table] at hi
    rw [List.mem_append] at hi
    cases hi with
    | inl h =>
      rw [findAlloc_missState_of_isSome s t i (h4 i h)]
      exact h4 i h
    | inr h =>
      simp only [List.mem_singleton] at h
      subst h
      exact valOf_isSome _ _ t
        (valOf_missState_new s t ⟨h1, h2, h3, h4, h5⟩)
  · intro i hi j hj hv
    simp only [missState_table] at hi hj
    rw [List.mem_append] at hi hj
    cases hi with
    | inl hio =>
      cases hj with
      | inl hjo =>
        rw [valOf_missState_of_isSome s t i (h4 i hio),
          valOf_missState_of_isSome s t j (h4 j hjo)] at hv
        exact h5 i hio j hjo hv
      | inr hjn =>
        simp only [List.mem_singleton] at hjn
        subst hjn
        rw [valOf_missState_of_isSome s t i (h4 i hio),
          valOf_missState_new s t ⟨h1, h2, h3, h4, h5⟩] at hv
        exact absurd hv (tableGet_none s t hg i hio)
    | inr hin =>
      simp only [List.mem_singleton] at hin
      subst hin
      cases hj with
      | inl hjo =>
        rw [valOf_missState_of_isSome s t j (h4 j hjo),
          valOf_missState_new s t ⟨h1, h2, h3, h4, h5⟩] at hv
        exact absurd hv.symm (tableGet_none s t hg j hjo)
      | inr hjn =>
        simp only [List.mem_singleton] at hjn
        rw [hjn]

theorem inv_try_intern (s : Interner α) (t : α) (hInv : Inv s) :
    Inv (s.try_intern t).2 := by
  unfold try_intern
  cases hg : s.tableGet t with
  | some j => exact inv_incr s j hInv
  | none => exact hInv

theorem inv_intern (s : Interner α) (t : α) (hInv : Inv s) :
    Inv (s.intern t).2 := by
  cases hg : s.tableGet t with
  | some j =>
    rw [intern_hit s t j hg]
    exact inv_incr s j hInv
  | none =>
    rw [intern_miss s t hg]
    exact inv_missState s t hInv hg

/-- Every operation preserves the invariant. -/
theorem inv_step (s : Interner α) (op : Op α) (hInv : Inv s) :
    Inv (s.step op) := by
  cases op with
  | tryIntern t => exact inv_try_intern s t hInv
  | internOp t => exact inv_intern s t hInv
  | internClonedOp t =>
    show Inv (s.intern_cloned t).2
    rw [intern_cloned_eq]
    exact inv_intern s t hInv
  | internBoxedOp t =>
    show Inv (s.intern_boxed t).2
    rw [intern_boxed_eq]
    exact inv_intern s t hInv
  | cloneHandle i => exact inv_incr s i hInv
  | dropHandle i => exact inv_decr s i hInv
  | shrinkToFit => exact inv_shrink s hInv

theorem inv_run (s : Interner α) (ops : List (Op α)) (hInv : Inv s) :
    Inv (s.run ops) := by
  induction ops generalizing s with
  | nil => exact hInv
  | cons op ops ih => exact ih (s.step op) (inv_step s op hInv)

/-- The fresh interner is well-formed. -/
theorem inv_new : Inv (new : Interner α) := by
  refine ⟨List.nodup_nil, ?_, List.nodup_nil, ?_, ?_⟩ <;>
    intro a ha <;> exact absurd ha (List.not_mem_nil a)

theorem valOf_intern_of_some (s : Interner α) (t : α) (i : Nat) (w : α)
    (h : s.valOf i = some w) : ((s.intern t).2).valOf i = some w := by
  cases hg : s.tableGet t with
  | some j =>
    rw [intern_hit s t j hg]
    show (s.incr j).valOf i = some w
    rw [valOf_incr]
    exact h
  | none =>
    rw [intern_miss s t hg]
    rw [valOf_missState_of_isSome s t i (valOf_isSome s i w h)]
    exact h

/-- No operation changes the value behind an existing allocation. -/
theorem valOf_step_of_some (s : Interner α) (op : Op α) (i : Nat) (w : α)
    (h : s.valOf i = some w) : (s.step op).valOf i = some w := by
  cases op with
  | tryIntern t =>
    show ((s.try_intern t).2).valOf i = some w
    unfold try_intern
    cases hg : s.tableGet t with
    | some j =>
      show (s.incr j).valOf i = some w
      rw [valOf_incr]
      exact h
    | none => exact h
  | internOp t => exact valOf_intern_of_some s t i w h
  | internClonedOp t =>
    show ((s.intern_cloned t).2).valOf i = some w
    rw [intern_cloned_eq]
    exact valOf_intern_of_some s t i w h
  | internBoxedOp t =>
    show ((s.intern_boxed t).2).valOf i = some w
    rw [intern_boxed_eq]
    exact valOf_intern_of_some s t i w h
  | cloneHandle j =>
    show (s.incr j).valOf i = some w
    rw [valOf_incr]
    exact h
  | dropHandle j =>
    show (s.decr j).valOf i = some w
    rw [valOf_decr]
    exact h
  | shrinkToFit =>
    show (s.shrink_to_fit).valOf i = some w
    rw [valOf_shrink]
    exact h

theorem valOf_run_of_some (s : Interner α) (ops : List (Op α)) (i : Nat)
    (w : α) (h : s.valOf i = some w) : (s.run ops).valOf i = some w := by
  induction ops generalizing s with
  | nil => exact h
  | cons op ops ih => exact ih (s.step op) (valOf_step_of_some s op i w h)

theorem interner_ext (x y : Interner α) (h1 : x.allocs = y.allocs)
    (h2 : x.nextId = y.nextId) (h3 : x.table = y.table) : x = y := by
  cases x
  cases y
  simp_all

theorem strongCount_shrink_of_not_removed (s : Interner α) (i : Nat)
    (h : i ∉ s.table.filter (fun j => decide (¬ 1 < s.strongCount j))) :
    (s.shrink_to_fit).strongCount i = s.strongCount i := by
  show (((s.allocs.map (fun a =>
      if a.id ∈ s.table.filter (fun j => decide (¬ 1 < s.strongCount j))
      then { a with strong := a.strong - 1 } else a)).find?
        (fun a => a.id == i)).map Alloc.strong).getD 0
    = ((s.allocs.find? (fun a => a.id == i)).map Alloc.strong).getD 0
  rw [find?_map_idpred (fun a => a.id == i) _ (fun a => by split <;> rfl)
    s.allocs]
  cases hf : s.findAlloc i with
  | none =>
    unfold findAlloc at hf
    rw [hf]
    rfl
  | some a =>
    have hid := findAlloc_id s i a hf
    have hstr : (if a.id ∈ s.table.filter
          (fun j => decide (¬ 1 < s.strongCount j))
        then { a with strong := a.strong - 1 } else a).strong = a.strong := by
      rw [if_neg (by rw [hid]; exact h)]
    unfold findAlloc at hf
    rw [hf]
    exact hstr

theorem applyEP_eq_intern (e : EPoint) (s : Interner α) (v : α) :
    applyEP e s v = s.intern v := by
  cases e <;> rfl

theorem no_value_intern (v t : α) (s : Interner α) (hInv : Inv s)
    (hne : t ≠ v) (hbase : ∀ i ∈ s.table, s.valOf i ≠ some v) :
    ∀ i ∈ (s.intern t).2.table, (s.intern t).2.valOf i ≠ some v := by
  intro i hi
  cases hg : s.tableGet t with
  | some j =>
    rw [intern_hit s t j hg] at hi ⊢
    have hi' : i ∈ s.table := hi
    show (s.incr j).valOf i ≠ some v
    rw [valOf_incr]
    exact hbase i hi'
  | none =>
    rw [intern_miss s t hg] at hi ⊢
    have hi' : i ∈ s.table ++ [s.nextId] := hi
    rw [List.mem_append] at hi'
    show (missState s t).valOf i ≠ some v
    cases hi' with
    | inl h =>
      rw [valOf_missState_of_isSome s t i (hInv.2.2.2.1 i h)]
      exact hbase i h
    | inr h =>
      simp only [List.mem_singleton] at h
      subst h
      rw [valOf_missState_new s t hInv]
      intro hc
      exact hne (Option.some.inj hc)

theorem no_value_step (v : α) (s : Interner α) (op : Op α) (hInv : Inv s)
    (hop : Op.internsValue v op = false)
    (hbase : ∀ i ∈ s.table, s.valOf i ≠ some v) :
    ∀ i ∈ (s.step op).table, (s.step op).valOf i ≠ some v := by
  cases op with
  | tryIntern t =>
    intro i hi
    have hi2 : i ∈ (s.try_intern t).2.table := hi
    show (s.try_intern t).2.valOf i ≠ some v
    unfold try_intern at hi2 ⊢
    cases hg : s.tableGet t with
    | some j =>
      rw [hg] at hi2
      have hi' : i ∈ s.table := hi2
      show (s.incr j).valOf i ≠ some v
      rw [valOf_incr]
      exact hbase i hi'
    | none =>
      rw [hg] at hi2
      exact hbase i hi2
  | internOp t =>
    have hne : t ≠ v := by
      intro hc
      subst hc
      simp [Op.internsValue] at hop
    exact no_value_intern v t s hInv hne hbase
  | internClonedOp t =>
    have hne : t ≠ v := by
      intro hc
      subst hc
      simp [Op.internsValue] at hop
    intro i hi
    show (s.intern_cloned t).2.valOf i ≠ some v
    rw [intern_cloned_eq]
    have hi' : i ∈ (s.intern t).2.table := by
      rw [← intern_cloned_eq]
      exact hi
    exact no_value_intern v t s hInv hne hbase i hi'
  | internBoxedOp t =>
    have hne : t ≠ v := by
      intro hc
      subst hc
      simp [Op.internsValue] at hop
    intro i hi
    show (s.intern_boxed t).2.valOf i ≠ some v
    rw [intern_boxed_eq]
    have hi' : i ∈ (s.intern t).2.table := by
      rw [← intern_boxed_eq]
      exact hi
    exact no_value_intern v t s hInv hne hbase i hi'
  | cloneHandle j =>
    intro i hi
    have hi' : i ∈ s.table := hi
    show (s.incr j).valOf i ≠ some v
    rw [valOf_incr]
    exact hbase i hi'
  | dropHandle j =>
    intro i hi
    have hi' : i ∈ s.table := hi
    show (s.decr j).valOf i ≠ some v
    rw [valOf_decr]
    exact hbase i hi'
  | shrinkToFit =>
    intro i hi
    have hi' : i ∈ s.table := ((mem_table_shrink s i).1 hi).1
    show (s.shrink_to_fit).valOf i ≠ some v
    rw [valOf_shrink]
    exact hbase i hi'

theorem no_value_run (v : α) (s : Interner α) (ops : List (Op α))
    (hInv : Inv s) (hno : ∀ op ∈ ops, Op.internsValue v op = false)
    (hbase : ∀ i ∈ s.table, s.valOf i ≠ some v) :
    ∀ i ∈ (s.run ops).table, (s.run ops).valOf i ≠ some v := by
  induction ops generalizing s with
  | nil => exact hbase
  | cons op ops ih =>
    exact ih (s.step op) (inv_step s op hInv)
      (fun o ho => hno o (List.mem_cons_of_mem _ ho))
      (no_value_step v s op hInv (hno op (List.mem_cons_self _ _)) hbase)

end Interner

/-! Claim theorems. -/

open Interner

/-- C1: for every interner and every two values v1, v2 with v1 == v2, the
handles returned by intern(v1) and by a later intern(v2) on the same
interner are pointer-identical (same allocation id), regardless of the
operations performed in between that do not evict the entry (the handle is
still in the table when the second intern runs). -/
theorem dedup_identity {β : Type} [DecidableEq β] (s : Interner β)
    (v1 v2 : β) (ops : List (Op β)) (hInv : Inv s) (hv : v1 = v2)
    (hkeep : (s.intern v1).1 ∈ (((s.intern v1).2).run ops).table) :
    ((((s.intern v1).2).run ops).intern v2).1 = (s.intern v1).1 := by
  subst hv
  have hInv1 : Inv (s.intern v1).2 := inv_intern s v1 hInv
  have hInv2 : Inv (((s.intern v1).2).run ops) := inv_run _ ops hInv1
  have hval1 : ((s.intern v1).2).valOf (s.intern v1).1 = some v1 :=
    valOf_intern_self s v1 hInv
  have hval2 : (((s.intern v1).2).run ops).valOf (s.intern v1).1 = some v1 :=
    valOf_run_of_some _ ops _ v1 hval1
  have hget : (((s.intern v1).2).run ops).tableGet v1 = some (s.intern v1).1 :=
    tableGet_eq_some_of_inv _ v1 _ hInv2 hkeep hval2
  rw [intern_hit _ v1 _ hget]

theorem dedup_identity_witness :
    Inv (Interner.new : Interner Nat) ∧ (42 : Nat) = 42 ∧
    ((Interner.new : Interner Nat).intern 42).1 ∈
      ((((Interner.new : Interner Nat).intern 42).2).run
        [Op.internOp 1337, Op.tryIntern 42, Op.shrinkToFit]).table ∧
    (((((Interner.new : Interner Nat).intern 42).2).run
        [Op.internOp 1337, Op.tryIntern 42, Op.shrinkToFit]).intern 42).1
      = ((Interner.new : Interner Nat).intern 42).1 :=
  ⟨by decide, rfl, by decide,
    dedup_identity Interner.new 42 42
      [Op.internOp 1337, Op.tryIntern 42, Op.shrinkToFit]
      (by decide) rfl (by decide)⟩

/-- C2: shrink_to_fit retains an entry iff strictly more than one reference
to its allocation exists (the table's own plus at least one external), and
removes it exactly when the table's reference is the only one; in the
scenario x = intern 42, y = intern 1337, z = y.clone(), after dropping x
and y and compacting, try_intern 42 returns nothing while try_intern 1337
returns a handle pointer-identical to z. -/
theorem compact_retention_law :
    (∀ (β : Type) [DecidableEq β] (s : Interner β) (i : Nat),
      i ∈ (s.shrink_to_fit).table ↔ i ∈ s.table ∧ 1 < s.strongCount i) ∧
    (let s1 := (Interner.new : Interner Nat).intern 42
     let s2 := s1.2.intern 1337
     let s3 := s2.2.incr s2.1
     let s4 := s3.decr s1.1
     let s5 := s4.decr s2.1
     let s6 := s5.shrink_to_fit
     (s6.try_intern 42).1 = none ∧ (s6.try_intern 1337).1 = some s2.1) :=
  ⟨fun β _ s i => mem_table_shrink s i, by decide⟩

/-- C4: starting from a fresh interner, after any sequence of operations the
table contains at most one live entry per distinct value; equivalently the
well-formedness invariant is preserved by every operation. -/
theorem at_most_one_entry_per_value :
    (∀ (β : Type) [DecidableEq β] (ops : List (Op β)),
      AtMostOnePerValue ((Interner.new : Interner β).run ops)) ∧
    (∀ (β : Type) [DecidableEq β] (s : Interner β) (op : Op β),
      Inv s → Inv (s.step op)) :=
  ⟨fun _ _ ops => (inv_run Interner.new ops inv_new).2.2.2.2,
   fun _ _ s op hInv => inv_step s op hInv⟩

theorem at_most_one_entry_per_value_witness :
    AtMostOnePerValue ((Interner.new : Interner Nat).run
      [Op.internOp 42, Op.internOp 42, Op.shrinkToFit]) ∧
    Inv (((Interner.new : Interner Nat).run [Op.internOp 42]).step
      (Op.internOp 7)) :=
  ⟨at_most_one_entry_per_value.1 Nat
      [Op.internOp 42, Op.internOp 42, Op.shrinkToFit],
   at_most_one_entry_per_value.2 Nat
      ((Interner.new : Interner Nat).run [Op.internOp 42])
      (Op.internOp 7) (by decide)⟩

/-- C6: try_intern performs a lookup only and never mutates the table: the
set of entries (and every entry's referenced value) is identical before and
after the call, whatever it returns. -/
theorem try_intern_pure_lookup {β : Type} [DecidableEq β] (s : Interner β)
    (t : β) :
    ((s.try_intern t).2).table = s.table ∧
    ∀ i, ((s.try_intern t).2).valOf i = s.valOf i := by
  unfold try_intern
  cases hg : s.tableGet t with
  | some j => exact ⟨rfl, fun i => valOf_incr s j i⟩
  | none => exact ⟨rfl, fun i => rfl⟩

/-- C3: try_intern(v) returns nothing on an interner (built from fresh by
any operations none of which is an intern-family call with a value equal to
v); after one intern(v) call on any well-formed interner, try_intern(v)
returns a handle pointer-identical to the one intern returned. -/
theorem try_intern_miss_then_hit {β : Type} [DecidableEq β] (v : β)
    (ops : List (Op β)) (hno : ∀ op ∈ ops, Op.internsValue v op = false) :
    (((Interner.new : Interner β).run ops).try_intern v).1 = none ∧
    ∀ (s : Interner β), Inv s →
      (((s.intern v).2).try_intern v).1 = some (s.intern v).1 := by
  constructor
  · have hnov := no_value_run v Interner.new ops inv_new hno
      (fun i hi => absurd hi (List.not_mem_nil i))
    show (((Interner.new : Interner β).run ops).try_intern v).1 = none
    unfold try_intern
    rw [tableGet_eq_none _ v hnov]
  · intro s hInv
    unfold try_intern
    rw [tableGet_intern_self s v hInv]

theorem try_intern_miss_then_hit_witness :
    ((((Interner.new : Interner Nat).run
        [Op.internOp 5, Op.tryIntern 42, Op.shrinkToFit]).try_intern 42).1
      = none) ∧
    ((((Interner.new : Interner Nat).intern 42).2.try_intern 42).1
      = some ((Interner.new : Interner Nat).intern 42).1) :=
  ⟨(try_intern_miss_then_hit 42
      [Op.internOp 5, Op.tryIntern 42, Op.shrinkToFit] (by decide)).1,
   (try_intern_miss_then_hit 42
      [Op.internOp 5, Op.tryIntern 42, Op.shrinkToFit] (by decide)).2
      Interner.new (by decide)⟩

/-- C5: a single intern call updates the table atomically: on a hit the
table is exactly as it was, on a miss exactly one new entry is appended;
every previously present entry stays present with unchanged value, and the
strong count of every allocation other than the returned handle is
unchanged. -/
theorem intern_frame_effect {β : Type} [DecidableEq β] (s : Interner β)
    (v : β) :
    ((s.tableGet v).isSome → ((s.intern v).2).table = s.table) ∧
    (s.tableGet v = none →
      ((s.intern v).2).table = s.table ++ [s.nextId]) ∧
    (∀ i ∈ s.table, i ∈ ((s.intern v).2).table) ∧
    (∀ i w, s.valOf i = some w → ((s.intern v).2).valOf i = some w) ∧
    (∀ i, i ≠ (s.intern v).1 →
      ((s.intern v).2).strongCount i = s.strongCount i) := by
  refine ⟨?_, ?_, ?_, ?_, ?_⟩
  · intro h
    obtain ⟨j, hj⟩ := Option.isSome_iff_exists.1 h
    rw [intern_hit s v j hj]
    rfl
  · intro h
    rw [intern_miss s v h]
    rfl
  · intro i hi
    cases hg : s.tableGet v with
    | some j =>
      rw [intern_hit s v j hg]
      exact hi
    | none =>
      rw [intern_miss s v hg]
      show i ∈ s.table ++ [s.nextId]
      exact List.mem_append.2 (Or.inl hi)
  · intro i w h
    exact valOf_intern_of_some s v i w h
  · intro i hne
    cases hg : s.tableGet v with
    | some j =>
      rw [intern_hit s v j hg] at hne ⊢
      exact strongCount_incr_ne s j i hne
    | none =>
      rw [intern_miss s v hg] at hne ⊢
      exact strongCount_missState_ne s v i hne

theorem intern_frame_effect_witness :
    ((((Interner.new : Interner Nat).intern 42).2.intern 42).2.table
      = ((Interner.new : Interner Nat).intern 42).2.table) ∧
    ((((Interner.new : Interner Nat).intern 42).2.intern 1337).2.table
      = ((Interner.new : Interner Nat).intern 42).2.table
        ++ [((Interner.new : Interner Nat).intern 42).2.nextId]) ∧
    (0 ∈ (((Interner.new : Interner Nat).intern 42).2.intern 1337).2.table) ∧
    ((((Interner.new : Interner Nat).intern 42).2.intern 1337).2.valOf 0
      = some 42) ∧
    ((((Interner.new : Interner Nat).intern 42).2.intern 1337).2.strongCount 0
      = ((Interner.new : Interner Nat).intern 42).2.strongCount 0) :=
  ⟨(intern_frame_effect ((Interner.new : Interner Nat).intern 42).2 42).1
      (by decide),
   (intern_frame_effect ((Interner.new : Interner Nat).intern 42).2 1337).2.1
      (by decide),
   (intern_frame_effect
      ((Interner.new : Interner Nat).intern 42).2 1337).2.2.1 0 (by decide),
   (intern_frame_effect
      ((Interner.new : Interner Nat).intern 42).2 1337).2.2.2.1 0 42
      (by decide),
   (intern_frame_effect
      ((Interner.new : Interner Nat).intern 42).2 1337).2.2.2.2 0
      (by decide)⟩

/-- C7: compaction is idempotent: a second shrink_to_fit directly after a
first one leaves the state (table, heap, counts) exactly as after the
first. -/
theorem shrink_to_fit_idempotent {β : Type} [DecidableEq β]
    (s : Interner β) :
    (s.shrink_to_fit).shrink_to_fit = s.shrink_to_fit := by
  have hkey : ∀ i ∈ (s.shrink_to_fit).table,
      1 < (s.shrink_to_fit).strongCount i := by
    intro i hi
    have h2 := (mem_table_shrink s i).1 hi
    have hnr : i ∉ s.table.filter (fun j => decide (¬ 1 < s.strongCount j)) := by
      intro hmem
      have hcond := (List.mem_filter.1 hmem).2
      rw [decide_eq_true_eq] at hcond
      exact hcond h2.2
    rw [strongCount_shrink_of_not_removed s i hnr]
    exact h2.2
  have hrem : (s.shrink_to_fit).table.filter
      (fun i => decide (¬ 1 < (s.shrink_to_fit).strongCount i)) = [] := by
    rw [List.filter_eq_nil_iff]
    intro i hi
    simp only [decide_eq_true_eq]
    exact not_not_intro (hkey i hi)
  apply interner_ext
  · show (s.shrink_to_fit).allocs.map (fun a =>
      if a.id ∈ (s.shrink_to_fit).table.filter
        (fun i => decide (¬ 1 < (s.shrink_to_fit).strongCount i))
      then { a with strong := a.strong - 1 } else a) = (s.shrink_to_fit).allocs
    rw [hrem]
    have hfun : (fun (a : Alloc β) =>
        if a.id ∈ ([] : List Nat) then { a with strong := a.strong - 1 }
        else a) = fun a => a := by
      funext a
      rw [if_neg (List.not_mem_nil a.id)]
    rw [hfun]
    simp
  · rfl
  · show (s.shrink_to_fit).table.filter
      (fun i => decide (1 < (s.shrink_to_fit).strongCount i))
      = (s.shrink_to_fit).table
    rw [List.filter_eq_self]
    intro i hi
    rw [decide_eq_true_eq]
    exact hkey i hi

/-- C8: the borrowed-view and owned-buffer entry points are equivalent for
deduplication: intern_slice then intern_vec with equal contents yield
pointer-identical handles, as do intern_str then intern_string; in
particular for [1,2,3] and "hello" from a fresh interner. -/
theorem slice_str_entry_point_equiv :
    (∀ (γ : Type) [DecidableEq γ] (s : Interner (List γ)) (l : List γ),
      Inv s → ((s.intern_slice l).2.intern_vec l).1 = (s.intern_slice l).1) ∧
    (∀ (s : Interner String) (t : String), Inv s →
      ((s.intern_str t).2.intern_string t).1 = (s.intern_str t).1) ∧
    ((((Interner.new : Interner (List Nat)).intern_slice [1, 2, 3]).2.intern_vec
        [1, 2, 3]).1
      = ((Interner.new : Interner (List Nat)).intern_slice [1, 2, 3]).1) ∧
    ((((Interner.new : Interner String).intern_str "hello").2.intern_string
        "hello").1
      = ((Interner.new : Interner String).intern_str "hello").1) := by
  refine ⟨?_, ?_, by decide, by decide⟩
  · intro γ inst s l hInv
    rw [intern_vec_eq, intern_slice_eq]
    rw [intern_hit _ l _ (tableGet_intern_self s l hInv)]
  · intro s t hInv
    rw [intern_string_eq, intern_str_eq]
    rw [intern_hit _ t _ (tableGet_intern_self s t hInv)]

theorem slice_str_entry_point_equiv_witness :
    ((((Interner.new : Interner (List Nat)).intern_slice [4, 5]).2.intern_vec
        [4, 5]).1
      = ((Interner.new : Interner (List Nat)).intern_slice [4, 5]).1) ∧
    ((((Interner.new : Interner String).intern_str "ab").2.intern_string
        "ab").1
      = ((Interner.new : Interner String).intern_str "ab").1) :=
  ⟨slice_str_entry_point_equiv.1 Nat Interner.new [4, 5] (by decide),
   slice_str_entry_point_equiv.2.1 Interner.new "ab" (by decide)⟩

/-- C9: the handle returned by every intern-family operation dereferences
to a value equal to the input, on both the hit and the miss path. -/
theorem intern_value_preservation :
    (∀ (β : Type) [DecidableEq β] (s : Interner β) (v : β), Inv s →
      ((s.intern v).2).valOf ((s.intern v).1) = some v) ∧
    (∀ (β : Type) [DecidableEq β] (s : Interner β) (v : β), Inv s →
      ((s.intern_cloned v).2).valOf ((s.intern_cloned v).1) = some v) ∧
    (∀ (β : Type) [DecidableEq β] (s : Interner β) (v : β), Inv s →
      ((s.intern_boxed v).2).valOf ((s.intern_boxed v).1) = some v) ∧
    (∀ (γ : Type) [DecidableEq γ] (s : Interner (List γ)) (l : List γ),
      Inv s → ((s.intern_slice l).2).valOf ((s.intern_slice l).1) = some l) ∧
    (∀ (s : Interner String) (t : String), Inv s →
      ((s.intern_str t).2).valOf ((s.intern_str t).1) = some t) := by
  refine ⟨?_, ?_, ?_, ?_, ?_⟩
  · intro β inst s v hInv
    exact valOf_intern_self s v hInv
  · intro β inst s v hInv
    rw [intern_cloned_eq]
    exact valOf_intern_self s v hInv
  · intro β inst s v hInv
    rw [intern_boxed_eq]
    exact valOf_intern_self s v hInv
  · intro γ inst s l hInv
    rw [intern_slice_eq]
    exact valOf_intern_self s l hInv
  · intro s t hInv
    rw [intern_str_eq]
    exact valOf_intern_self s t hInv

theorem intern_value_preservation_witness :
    (((Interner.new : Interner Nat).intern 42).2.valOf
      ((Interner.new : Interner Nat).intern 42).1 = some 42) ∧
    ((((Interner.new : Interner Nat).intern 42).2.intern_cloned 42).2.valOf
      (((Interner.new : Interner Nat).intern 42).2.intern_cloned 42).1
      = some 42) ∧
    (((Interner.new : Interner Nat).intern_boxed 7).2.valOf
      ((Interner.new : Interner Nat).intern_boxed 7).1 = some 7) ∧
    (((Interner.new : Interner (List Nat)).intern_slice [1, 2]).2.valOf
      ((Interner.new : Interner (List Nat)).intern_slice [1, 2]).1
      = some [1, 2]) ∧
    (((Interner.new : Interner String).intern_str "hi").2.valOf
      ((Interner.new : Interner String).intern_str "hi").1 = some "hi") :=
  ⟨intern_value_preservation.1 Nat Interner.new 42 (by decide),
   intern_value_preservation.2.1 Nat
      ((Interner.new : Interner Nat).intern 42).2 42 (by decide),
   intern_value_preservation.2.2.1 Nat Interner.new 7 (by decide),
   intern_value_preservation.2.2.2.1 Nat Interner.new [1, 2] (by decide),
   intern_value_preservation.2.2.2.2 Interner.new "hi" (by decide)⟩

/-- C10: all intern-family entry points consult the same table: any chain
of intern / intern_cloned / intern_boxed calls with equal values on the
same well-formed interner returns handles pointer-identical to the handle
established by the first call. -/
theorem cross_entry_point_canonical {β : Type} [DecidableEq β]
    (s : Interner β) (v : β) (e : EPoint) (es : List EPoint) (hInv : Inv s) :
    ∀ h ∈ (runEP s v (e :: es)).1, h = (applyEP e s v).1 := by
  have key : ∀ (es1 : List EPoint) (s0 : Interner β) (h0 : Nat), Inv s0 →
      s0.tableGet v = some h0 → ∀ h ∈ (runEP s0 v es1).1, h = h0 := by
    intro es1
    induction es1 with
    | nil =>
      intro s0 h0 _ _ h hmem
      exact absurd hmem (List.not_mem_nil h)
    | cons e1 es2 ih =>
      intro s0 h0 hInv0 hget h hmem
      have hmem1 : h ∈ (applyEP e1 s0 v).1
          :: (runEP (applyEP e1 s0 v).2 v es2).1 := hmem
      have hfst : (applyEP e1 s0 v).1 = h0 := by
        rw [applyEP_eq_intern, intern_hit s0 v h0 hget]
      cases List.mem_cons.1 hmem1 with
      | inl hh => rw [hh, hfst]
      | inr hh =>
        refine ih (applyEP e1 s0 v).2 h0 ?_ ?_ h hh
        · rw [applyEP_eq_intern]
          exact inv_intern s0 v hInv0
        · rw [applyEP_eq_intern]
          rw [tableGet_intern_self s0 v hInv0, intern_hit s0 v h0 hget]
  intro h hmem
  have hmem1 : h ∈ (applyEP e s v).1 :: (runEP (applyEP e s v).2 v es).1 :=
    hmem
  cases List.mem_cons.1 hmem1 with
  | inl hh => exact hh
  | inr hh =>
    refine key es (applyEP e s v).2 (applyEP e s v).1 ?_ ?_ h hh
    · rw [applyEP_eq_intern]
      exact inv_intern s v hInv
    · rw [applyEP_eq_intern]
      exact tableGet_intern_self s v hInv

theorem cross_entry_point_canonical_witness :
    (0 ∈ (runEP (Interner.new : Interner Nat) 42
      [EPoint.useCloned, EPoint.useBoxed, EPoint.useIntern]).1) ∧
    (0 = (applyEP EPoint.useCloned (Interner.new : Interner Nat) 42).1) :=
  ⟨by decide,
   cross_entry_point_canonical Interner.new 42 EPoint.useCloned
      [EPoint.useBoxed, EPoint.useIntern] (by decide) 0 (by decide)⟩

end RefcountInterner
